import Mathlib

/-!
Verification of the NastaliqKerning / AtHeight rule compiler
(qalamTools/NastaliqKerning.py).

The Python module is embedded shallowly:

* Python numbers that may be non-integral (bin rises, tapered distances,
  the tuck ratio) are modelled as `Rat`; IEEE-754 rounding of float
  arithmetic is abstracted to exact rational arithmetic.
* `round` is Python's round-half-to-even (`pyRound`), `int()` is
  truncation toward zero (`pyInt`).
* The persistent `shelve` store is an association list from string keys
  to integers, first match wins, insertion prepends (Python assignment
  overwrites, which first-match lookup on a prepended list models).
* The external solver `determine_kern` may fail; a failed call raises in
  Python and is modelled by `Except`: an `Except.error` propagates and
  skips all work that would follow it, including `shelve.close()`.
* Object identity of `fontFeatures.Routine` values (which the code relies
  on for table sharing) is modelled by a fresh numeric id `rid` drawn from
  a counter threaded through the state: two separately built routines get
  distinct ids even when their contents are equal.
* `str()` of the float tuck ratio is modelled by `ratStr`, an injective,
  slash-free rendering of the rational; every property proved below
  depends only on injectivity and slash-freeness of the rendering.
* CPython set iteration order (used in `list(set(..) - set(..))`) is
  unspecified; it is modelled by an order-preserving filter.  No property
  below depends on the order of glyphs inside a class.
-/

/-- Python `round` (round half to even) on rationals. -/
def pyRound (q : Rat) : Int :=
  let f := q.floor
  let frac := q - (f : Rat)
  if frac < 1/2 then f
  else if 1/2 < frac then f + 1
  else if f % 2 = 0 then f else f + 1

/-- Python `int()` applied to a rational: truncation toward zero. -/
def pyInt (q : Rat) : Int :=
  if q < 0 then -((-q).floor) else q.floor

/-- `quantize(number, degree)` from the source: `degree * round(number / degree)`. -/
def quantize (number : Rat) (degree : Int) : Int :=
  degree * pyRound (number / (degree : Rat))

/-- Module constant `accuracy1 = 3` (bin count). -/
def accuracy1 : Nat := 3

/-- Module constant `rise_quantization = 100`. -/
def rise_quantization : Int := 100

/-- Module constant `maximum_rise = 600`. -/
def maximum_rise : Int := 600

/-- Module constant `kern_quantization = 10`. -/
def kern_quantization : Int := 10

/-- Module constant `maximum_word_length = 5`. -/
def maximum_word_length : Nat := 5

/-- The hard-coded blocker glyphs (`blockers = ["AINf1", "JIMf1"]`). -/
def blockers : List String := ["AINf1", "JIMf1"]

/-! ### Decimal rendering of numbers, as `str()` does for `int`

`natStrAux` produces the usual base-10 digits, most significant first.
The fuel argument makes the recursion structural; it is always called
with `fuel = n`, and `n / 10 < n` keeps the calls within fuel. -/

def digitChar (d : Nat) : Char := Char.ofNat (48 + d)

def natStrAux : Nat → Nat → List Char
  | 0, _ => []
  | fuel + 1, n =>
    if n = 0 then [] else natStrAux fuel (n / 10) ++ [digitChar (n % 10)]

/-- Decimal rendering of a natural number, `str(n)` for `n >= 0`. -/
def natStr (n : Nat) : String :=
  if n = 0 then "0" else ⟨natStrAux n n⟩

/-- Decimal rendering of an integer, `str(i)`. -/
def intStr (i : Int) : String :=
  if i < 0 then "-" ++ natStr i.natAbs else natStr i.natAbs

/-- Rendering of the rational tuck ratio standing in for `str(float)`:
an injective, slash-free encoding (numerator, a dot, denominator). -/
def ratStr (q : Rat) : String :=
  intStr q.num ++ "." ++ natStr q.den

/-- `s` contains no `'/'` character (true of every real glyph name). -/
def slashFree (s : String) : Prop := ¬ '/' ∈ s.data

instance (s : String) : Decidable (slashFree s) := by
  unfold slashFree; infer_instance

/-! ### The shelve cache and other association lists -/

/-- First-match association lookup (Python `dict.__getitem__` /
`key in dict` combined). -/
def assocGet {κ α : Type} [DecidableEq κ] : List (κ × α) → κ → Option α
  | [], _ => none
  | (k, v) :: rest, key => if k = key then some v else assocGet rest key

/-- Association update (Python `dict[key] = v`); prepending together with
first-match lookup gives overwrite semantics. -/
def assocSet {κ α : Type} [DecidableEq κ] (m : List (κ × α)) (k : κ) (v : α) :
    List (κ × α) :=
  (k, v) :: m

/-- The persistent kern cache: string key to computed kern value. -/
abbrev Shelve := List (String × Int)

/-- The cache key: `"/".join(str(x) for x in [glyph1, glyph2,
targetdistance, height, maxtuck])`. -/
def cacheKey (glyph1 glyph2 : String) (targetdistance height : Int)
    (maxtuck : Rat) : String :=
  glyph1 ++ "/" ++ glyph2 ++ "/" ++ intStr targetdistance ++ "/" ++
    intStr height ++ "/" ++ ratStr maxtuck

/-! ### Rules and routines (the fontFeatures output model) -/

/-- A reference to a routine, as stored in a chaining rule's lookups:
the routine's identity (`rid`) and its name. -/
structure RoutRef where
  rid : Nat
  name : String
deriving DecidableEq, Repr

/-- A layout rule: either `fontFeatures.Positioning` (glyph groups plus
the xAdvance of each value record) or `fontFeatures.Chaining` (target
groups, postcontext groups, and per-slot lookup lists, `None` modelled
as `[]`). -/
inductive Rule where
  | positioning (glyphs : List (List String)) (xAdvances : List Int)
  | chaining (target : List (List String)) (postcontext : List (List String))
      (lookups : List (List RoutRef))
deriving DecidableEq, Repr

/-- A `fontFeatures.Routine`: identity, name, flags, optional mark
filtering set, rules, and (for kern routines) the attached `_table`. -/
structure Routine where
  rid : Nat
  name : String
  flags : Nat
  markFilteringSet : Option (List String)
  rules : List Rule
  table : List (String × List (String × Int))
deriving DecidableEq, Repr

def routineRef (rt : Routine) : RoutRef := ⟨rt.rid, rt.name⟩

/-! ### The configuration read by `NastaliqKerning.action`

Everything the verb reads from its arguments, the parser's font and the
named classes.  `inits`, `isols` and `isols_finas` are the lists the
action derives in lines 117-122 (the CPython set-order of
`list(set(isols + finas) | set(bariye))` is unspecified, so the derived
lists are taken as inputs).  `solver` is `qalamTools.determinekern
.determine_kern`; a raised exception is an `Except.error`. -/
structure Config where
  distance_at_closest : Int
  maxtuck : Rat
  solver : String → String → Int → Int → Rat → Except String Int
  inits : List String
  isols : List String
  isols_finas : List String
  binned_medis : List (List String × Rat)
  binned_finas : List (List String × Rat)
  rsb : String → Int
  lsb : String → Int
  all_above_marks : List String
  initialShelve : Shelve

/-- The mutable state threaded through one compilation run: the shelve,
the per-run memo `kern_at_rise`, the ink-to-ink memo, the fresh-identity
counter, and the number of solver invocations so far. -/
structure KernState where
  shelve : Shelve
  kern_at_rise : List (Int × Routine)
  ink_to_ink_routines : List (Int × Routine)
  nextId : Nat
  solverCalls : Nat
deriving Repr

/-- `NastaliqKerning.determine_kern_cached`: look the key up in the
shelve; on a hit return the stored value, on a miss call the solver,
store and return its result.  The third component counts solver calls
made by this invocation. -/
def determine_kern_cached (cfg : Config) (sh : Shelve)
    (glyph1 glyph2 : String) (targetdistance height : Int) (maxtuck : Rat) :
    Except String Int × Shelve × Nat :=
  let key := cacheKey glyph1 glyph2 targetdistance height maxtuck
  match assocGet sh key with
  | some v => (.ok v, sh, 0)
  | none =>
    match cfg.solver glyph1 glyph2 targetdistance height maxtuck with
    | .ok result => (.ok result, assocSet sh key result, 1)
    | .error e => (.error e, sh, 1)

/-! ### The kern table builder (`generate_kern_table_for_rise`, lines 304-390) -/

/-- Insertion sort on strings, modelling Python `sorted(ends)`. -/
def insertSorted (x : String) : List String → List String
  | [] => [x]
  | y :: ys => if x ≤ y then x :: y :: ys else y :: insertSorted x ys

def sortStrings (l : List String) : List String :=
  l.foldr insertSorted []

/-- The inner loop of the table build (`for initial in sorted(ends)`),
for one right glyph `end_of_previous_word`: each left glyph's kern is
computed through the cache and recorded when it is below `-10`,
quantized to `kern_quantization`.  Returns the row, the updated shelve
and the number of solver calls; a solver failure aborts the build. -/
def buildRow (cfg : Config) (r : Int) (end_of_previous_word : String) :
    List String → Shelve → Except String (List (String × Int) × Shelve × Nat)
  | [], sh => .ok ([], sh, 0)
  | initial :: rest, sh =>
    match determine_kern_cached cfg sh initial end_of_previous_word
        cfg.distance_at_closest r cfg.maxtuck with
    | (.error e, _, _) => .error e
    | (.ok kern, sh1, c1) =>
      match buildRow cfg r end_of_previous_word rest sh1 with
      | .error e => .error e
      | .ok (row, sh2, c2) =>
        .ok ((if kern < -10 then
                [(initial, quantize (kern : Rat) kern_quantization)]
              else []) ++ row, sh2, c1 + c2)

/-- The full double loop of lines 323-341: one row per right glyph. -/
def buildKernTable (cfg : Config) (r : Int) (rights lefts : List String)
    (sh : Shelve) :
    Except String ((List (String × List (String × Int))) × Shelve × Nat) :=
  match rights with
  | [] => .ok ([], sh, 0)
  | right :: rest =>
    match buildRow cfg r right lefts sh with
    | .error e => .error e
    | .ok (row, sh1, c1) =>
      match buildKernTable cfg r rest lefts sh1 with
      | .error e => .error e
      | .ok (tbl, sh2, c2) => .ok ((right, row) :: tbl, sh2, c1 + c2)

/-- Lines 352-362: turn the kern table into positioning rules (the
second value record carries the xAdvance). -/
def tableToRules (tbl : List (String × List (String × Int))) : List Rule :=
  tbl.flatMap fun p => p.2.map fun q => Rule.positioning [[p.1], [q.1]] [0, q.2]

/-- The tapering of `distance_at_closest` at the start of
`ink_to_ink_at` (lines 274-280), as exact rationals. -/
def ink_r_distance (cfg : Config) (r : Int) : Rat :=
  let d : Rat := (cfg.distance_at_closest : Rat)
  let d := if r = 100 then d * (1/2) else d
  let d := if r = 200 then d * (1/5) else d
  let d := if r = 300 then d * (1/5) else d
  d

/-- The adjustment computed for one (right, left) pair in
`ink_to_ink_at`: `int(r_distance - (max(left.rsb, 0) + max(right.lsb, 0)))`. -/
def inkVal (cfg : Config) (rdist : Rat) (right left : String) : Int :=
  pyInt (rdist - ((max (cfg.rsb left) 0 + max (cfg.lsb right) 0 : Int) : Rat))

/-- The rules of one ink-to-ink routine: for every right glyph in
`isols_finas` and left glyph in `inits + isols`, a positioning rule
unless the distance is zero. -/
def inkRow (cfg : Config) (rdist : Rat) (right : String) (lefts : List String) :
    List Rule :=
  lefts.filterMap fun left =>
    let dist := inkVal cfg rdist right left
    if dist = 0 then none
    else some (Rule.positioning [[right], [left]] [0, dist])

def inkRules (cfg : Config) (rdist : Rat) (rights lefts : List String) :
    List Rule :=
  rights.flatMap fun right => inkRow cfg rdist right lefts

/-- `NastaliqKerning.ink_to_ink_at` (lines 269-301): memoized per rise;
on a miss builds the routine and registers it under a fresh identity. -/
def ink_to_ink_at (cfg : Config) (st : KernState) (r : Int) :
    Routine × KernState :=
  match assocGet st.ink_to_ink_routines r with
  | some rt => (rt, st)
  | none =>
    let rt : Routine :=
      { rid := st.nextId
        name := "ink_to_ink_" ++ intStr r
        flags := 12
        markFilteringSet := none
        rules := inkRules cfg (ink_r_distance cfg r) cfg.isols_finas
          (cfg.inits ++ cfg.isols)
        table := [] }
    (rt, { st with
            nextId := st.nextId + 1
            ink_to_ink_routines := assocSet st.ink_to_ink_routines r rt })

/-- `NastaliqKerning.generate_kern_table_for_rise` (lines 304-390).
The memo is consulted with the raw argument `r0`; only afterwards is the
rise quantized.  Left candidates are the inits alone for a positive rise,
inits plus isols at the baseline.  For a quantized rise of at least 400
the kern routine itself is returned and memoized; otherwise a dispatch
routine with the space/ink-to-ink branch before the direct branch. -/
def generate_kern_table_for_rise (cfg : Config) (st : KernState) (r0 : Int) :
    Except String (Routine × KernState) :=
  match assocGet st.kern_at_rise r0 with
  | some rt => .ok (rt, st)
  | none =>
    let r := quantize (r0 : Rat) rise_quantization
    let ends := if 0 < r then cfg.inits else cfg.inits ++ cfg.isols
    match buildKernTable cfg r cfg.isols_finas (sortStrings ends) st.shelve with
    | .error e => .error e
    | .ok (kerntable, sh1, calls) =>
      let kernroutine : Routine :=
        { rid := st.nextId
          name := "kern_at_" ++ intStr r
          flags := 12
          markFilteringSet := some cfg.all_above_marks
          rules := tableToRules kerntable
          table := kerntable }
      let st1 : KernState :=
        { st with
            shelve := sh1
            solverCalls := st.solverCalls + calls
            nextId := st.nextId + 1 }
      if 400 ≤ r then
        .ok (kernroutine,
          { st1 with kern_at_rise := assocSet st1.kern_at_rise r kernroutine })
      else
        let inkSt := ink_to_ink_at cfg st1 r
        let dispatch : Routine :=
          { rid := inkSt.2.nextId
            name := "dispatch_" ++ intStr r
            flags := 8
            markFilteringSet := none
            rules :=
              [Rule.chaining [cfg.isols_finas, ["space.urdu"], ends] []
                  [[routineRef inkSt.1], [], []],
               Rule.chaining [cfg.isols_finas, ends] []
                  [[routineRef kernroutine], [], []]]
            table := [] }
        .ok (dispatch,
          { inkSt.2 with
              nextId := inkSt.2.nextId + 1
              kern_at_rise := assocSet inkSt.2.kern_at_rise r dispatch })

/-! ### The main enumeration (`NastaliqKerning.action`, lines 152-256) -/

/-- Lines 175-192 for one product tuple: the quantized aggregate rise,
the discard of negative aggregates, the clamp at `maximum_rise` and the
drop of the final bin at the maximum word length.  Returns `none` for
the `continue` case, otherwise the rise to use and the postcontext. -/
def riseAndContext (i : Nat) (seq : List (List String × Rat)) :
    Option (Int × List (List String)) :=
  let word_tail_rise := quantize (seq.map Prod.snd).sum rise_quantization
  if word_tail_rise < 0 then none
  else
    let postcontext := (seq.map Prod.fst).reverse
    if maximum_rise ≤ word_tail_rise then
      some (maximum_rise,
        if i = maximum_word_length then postcontext.dropLast else postcontext)
    else some (word_tail_rise, postcontext)

/-- Lines 194-240 for one sequence: the base chaining rule (with the
blockers filtered out of the innermost group when present), the extra
blocker rule when the context has more than one group, and the bari-ye
override when the rise is at least 400 and `i > 4`. -/
def rulesForContext (cfg : Config) (i : Nat) (word_tail_rise : Int)
    (postcontext : List (List String)) (lk : RoutRef) : List Rule :=
  let inner := postcontext.getLastD []
  let do_blockers := blockers.any fun b => inner.contains b
  let pc1 :=
    if do_blockers then
      postcontext.dropLast ++ [inner.filter fun g => !blockers.contains g]
    else postcontext
  let base := Rule.chaining [cfg.isols_finas] (cfg.inits :: pc1) [[lk]]
  let blockRules :=
    if 1 < pc1.length ∧ do_blockers then
      [Rule.chaining [cfg.isols_finas]
        (cfg.inits :: (pc1.dropLast ++ [blockers])) [[lk]]]
    else []
  let bariyeRules :=
    if 400 ≤ word_tail_rise ∧ 4 < i then
      [Rule.chaining [cfg.isols_finas]
        (cfg.inits :: (pc1.dropLast ++ [["BARI_YEf1"]])) [[lk]]]
    else []
  base :: (blockRules ++ bariyeRules)

/-- One iteration of the sequence loop: compute rise and context, fetch
the kern table for the rise, and emit the rules for the context. -/
def processSequence (cfg : Config) (st : KernState) (i : Nat)
    (seq : List (List String × Rat)) :
    Except String (List Rule × KernState) :=
  match riseAndContext i seq with
  | none => .ok ([], st)
  | some (word_tail_rise, postcontext) =>
    match generate_kern_table_for_rise cfg st word_tail_rise with
    | .error e => .error e
    | .ok (rt, st1) =>
      .ok (rulesForContext cfg i word_tail_rise postcontext (routineRef rt), st1)

/-- `itertools.product`, rightmost factor varying fastest. -/
def listProd {α : Type} : List (List α) → List (List α)
  | [] => [[]]
  | xs :: rest => xs.flatMap fun x => (listProd rest).map fun t => x :: t

/-- All `(i, sequence)` pairs of the main loop, `i` descending from
`maximum_word_length` to 0, product order within each length. -/
def allSequences (cfg : Config) : List (Nat × List (List String × Rat)) :=
  ((List.range (maximum_word_length + 1)).reverse).flatMap fun i =>
    (listProd ([cfg.binned_finas] ++ List.replicate i cfg.binned_medis)).map
      fun seq => (i, seq)

/-- Folding `processSequence` over the enumerated sequences, collecting
the emitted rules in order. -/
def runSeqs (cfg : Config) :
    KernState → List (Nat × List (List String × Rat)) →
    Except String (List Rule × KernState)
  | st, [] => .ok ([], st)
  | st, (i, seq) :: rest =>
    match processSequence cfg st i seq with
    | .error e => .error e
    | .ok (rules, st1) =>
      match runSeqs cfg st1 rest with
      | .error e => .error e
      | .ok (moreRules, st2) => .ok (rules ++ moreRules, st2)

/-- The tail of `NastaliqKerning.action` after the enumeration loop:
add the final isolate-versus-isolate rule (lines 243-252), close the
shelve, and return the routine.  The boolean records whether
`self.shelve.close()` was reached: an exception raised during rule
generation propagates past it, so every error path carries `false`. -/
def actionFinish (cfg : Config)
    (res : Except String (List Rule × KernState)) :
    Except String (List Routine) × Bool :=
  match res with
  | .error e => (.error e, false)
  | .ok (rules, st1) =>
    match generate_kern_table_for_rise cfg st1 0 with
    | .error e => (.error e, false)
    | .ok (rt0, _) =>
      let finalRule :=
        Rule.chaining [cfg.isols_finas] [cfg.isols] [[routineRef rt0]]
      (.ok [{ rid := 0
              name := "NastaliqKerning"
              flags := 12
              markFilteringSet := none
              rules := rules ++ [finalRule]
              table := [] }], true)

/-- `NastaliqKerning.action`: open the shelve (the state starts from the
persistent `cfg.initialShelve`), run the enumeration, and finish. -/
def NastaliqKerningAction (cfg : Config) : Except String (List Routine) × Bool :=
  actionFinish cfg
    (runSeqs cfg
      { shelve := cfg.initialShelve
        kern_at_rise := []
        ink_to_ink_routines := []
        nextId := 0
        solverCalls := 0 }
      (allSequences cfg))

/-! ### The generic height-band router (`AtHeight.action`, lines 393-436) -/

/-- Lines 419-435 for one product tuple: quantize the aggregate rise
(no negative discard, no clamp, no final-bin drop) and emit a rule
exactly when it lies within the closed interval. -/
def atHeightRule (isols_finas inits : List String) (target_routine : RoutRef)
    (height_lower height_upper : Int) (seq : List (List String × Rat)) :
    Option Rule :=
  let word_tail_rise := quantize (seq.map Prod.snd).sum rise_quantization
  let postcontext := (seq.map Prod.fst).reverse
  if height_lower ≤ word_tail_rise ∧ word_tail_rise ≤ height_upper then
    some (Rule.chaining [isols_finas, inits] postcontext [[target_routine], []])
  else none

/-- `AtHeight.action`: the same product enumeration, filtered by the
height band.  (`AtHeight` uses `isols + finas` unfiltered as its
`isols_finas`; the lists are taken as inputs here.) -/
def AtHeightAction (isols_finas inits : List String)
    (binned_finas binned_medis : List (List String × Rat))
    (target_routine : RoutRef) (height_lower height_upper : Int) : Routine :=
  { rid := 0
    name := "At_" ++ intStr height_lower ++ "_" ++ intStr height_upper ++ "_"
      ++ target_routine.name
    flags := 12
    markFilteringSet := none
    rules :=
      ((List.range (maximum_word_length + 1)).reverse).flatMap fun i =>
        (listProd ([binned_finas] ++ List.replicate i binned_medis)).filterMap
          (atHeightRule isols_finas inits target_routine height_lower
            height_upper)
    table := [] }

/-! ### Arithmetic facts about the quantizer -/

theorem rat_floor_eq_int_floor (q : Rat) : q.floor = ⌊q⌋ := rfl

/-- `pyRound` is the identity on integers. -/
theorem pyRound_intCast (k : Int) : pyRound ((k : Int) : Rat) = k := by
  unfold pyRound
  rw [rat_floor_eq_int_floor, Int.floor_intCast]
  simp

/-- `quantize` fixes every multiple of its degree (degree 100). -/
theorem quantize_hundred_mul (k : Int) :
    quantize (((100 * k : Int) : Int) : Rat) 100 = 100 * k := by
  unfold quantize
  have h : (((100 * k : Int) : Int) : Rat) / (((100 : Int)) : Rat) = (k : Rat) := by
    push_cast
    rw [mul_comm]
    exact mul_div_assoc (k : Rat) 100 100 ▸ by
      rw [div_self (by norm_num : (100 : Rat) ≠ 0), mul_one]
  rw [h, pyRound_intCast]

/-! ### Injectivity and slash-freeness of the decimal renderings -/

/-- Reading decimal digits back (most significant first). -/
def decodeDigits (l : List Char) : Nat :=
  l.foldl (fun acc c => acc * 10 + (c.toNat - 48)) 0

theorem decodeDigits_append_singleton (xs : List Char) (c : Char) :
    decodeDigits (xs ++ [c]) = decodeDigits xs * 10 + (c.toNat - 48) := by
  simp [decodeDigits, List.foldl_append]

theorem digitChar_toNat {d : Nat} (hd : d < 10) : (digitChar d).toNat = 48 + d := by
  have h : ∀ e : Fin 10, (digitChar e.val).toNat = 48 + e.val := by decide
  exact h ⟨d, hd⟩

theorem digitChar_ne_slash {d : Nat} (hd : d < 10) : digitChar d ≠ '/' := by
  have h : ∀ e : Fin 10, digitChar e.val ≠ '/' := by decide
  exact h ⟨d, hd⟩

theorem digitChar_ne_dot {d : Nat} (hd : d < 10) : digitChar d ≠ '.' := by
  have h : ∀ e : Fin 10, digitChar e.val ≠ '.' := by decide
  exact h ⟨d, hd⟩

theorem digitChar_ne_minus {d : Nat} (hd : d < 10) : digitChar d ≠ '-' := by
  have h : ∀ e : Fin 10, digitChar e.val ≠ '-' := by decide
  exact h ⟨d, hd⟩

theorem natStrAux_decode :
    ∀ (fuel n : Nat), n ≤ fuel → decodeDigits (natStrAux fuel n) = n := by
  intro fuel
  induction fuel with
  | zero =>
    intro n hn
    have : n = 0 := Nat.le_zero.mp hn
    subst this
    rfl
  | succ fuel ih =>
    intro n hn
    by_cases h0 : n = 0
    · subst h0; simp [natStrAux, decodeDigits]
    · have hdiv : n / 10 < n := Nat.div_lt_self (Nat.pos_of_ne_zero h0) (by omega)
      have hle : n / 10 ≤ fuel := by omega
      simp only [natStrAux, if_neg h0]
      rw [decodeDigits_append_singleton, ih (n / 10) hle,
        digitChar_toNat (Nat.mod_lt n (by omega))]
      omega

theorem natStrAux_chars :
    ∀ (fuel n : Nat), ∀ c ∈ natStrAux fuel n, ∃ d, d < 10 ∧ c = digitChar d := by
  intro fuel
  induction fuel with
  | zero => intro n c hc; simp [natStrAux] at hc
  | succ fuel ih =>
    intro n c hc
    simp only [natStrAux] at hc
    by_cases h0 : n = 0
    · rw [if_pos h0] at hc; simp at hc
    · rw [if_neg h0] at hc
      rcases List.mem_append.mp hc with h | h
      · exact ih (n / 10) c h
      · have : c = digitChar (n % 10) := by simpa using h
        exact ⟨n % 10, Nat.mod_lt n (by omega), this⟩

theorem natStr_chars (n : Nat) :
    ∀ c ∈ (natStr n).data, ∃ d, d < 10 ∧ c = digitChar d := by
  unfold natStr
  split
  · intro c hc
    have h0 : ("0").data = ['0'] := rfl
    rw [h0] at hc
    have : c = '0' := by simpa using hc
    exact ⟨0, by omega, by rw [this]; rfl⟩
  · intro c hc
    exact natStrAux_chars n n c hc

theorem natStr_no_slash (n : Nat) : ¬ '/' ∈ (natStr n).data := by
  intro h
  obtain ⟨d, hd, he⟩ := natStr_chars n _ h
  exact digitChar_ne_slash hd he.symm

theorem natStr_no_dot (n : Nat) : ¬ '.' ∈ (natStr n).data := by
  intro h
  obtain ⟨d, hd, he⟩ := natStr_chars n _ h
  exact digitChar_ne_dot hd he.symm

theorem natStr_no_minus (n : Nat) : ¬ '-' ∈ (natStr n).data := by
  intro h
  obtain ⟨d, hd, he⟩ := natStr_chars n _ h
  exact digitChar_ne_minus hd he.symm

theorem natStr_injective {m n : Nat} (h : natStr m = natStr n) : m = n := by
  have hzero : ∀ k : Nat, k ≠ 0 → natStr 0 = natStr k → False := by
    intro k hk hek
    unfold natStr at hek
    rw [if_pos rfl, if_neg hk] at hek
    have hdata : (['0'] : List Char) = natStrAux k k := congrArg String.data hek
    have hdec := natStrAux_decode k k le_rfl
    rw [← hdata] at hdec
    have : decodeDigits ['0'] = 0 := by decide
    omega
  by_cases hm : m = 0 <;> by_cases hn : n = 0
  · omega
  · exact absurd (hm ▸ h) (fun he => (hzero n hn he).elim)
  · exact absurd (hn ▸ h.symm) (fun he => (hzero m hm he).elim)
  · unfold natStr at h
    rw [if_neg hm, if_neg hn] at h
    have hdata : natStrAux m m = natStrAux n n := congrArg String.data h
    have h1 := natStrAux_decode m m le_rfl
    have h2 := natStrAux_decode n n le_rfl
    rw [hdata] at h1
    omega

theorem minus_data : ("-").data = ['-'] := rfl

theorem intStr_data_neg {i : Int} (h : i < 0) :
    (intStr i).data = '-' :: (natStr i.natAbs).data := by
  unfold intStr
  rw [if_pos h, String.data_append, minus_data]
  rfl

theorem intStr_data_nonneg {i : Int} (h : ¬ i < 0) :
    (intStr i).data = (natStr i.natAbs).data := by
  unfold intStr
  rw [if_neg h]

theorem intStr_no_slash (i : Int) : ¬ '/' ∈ (intStr i).data := by
  by_cases h : i < 0
  · rw [intStr_data_neg h]
    intro hc
    rcases List.mem_cons.mp hc with h1 | h1
    · exact absurd h1 (by decide)
    · exact natStr_no_slash _ h1
  · rw [intStr_data_nonneg h]
    exact natStr_no_slash _

theorem intStr_no_dot (i : Int) : ¬ '.' ∈ (intStr i).data := by
  by_cases h : i < 0
  · rw [intStr_data_neg h]
    intro hc
    rcases List.mem_cons.mp hc with h1 | h1
    · exact absurd h1 (by decide)
    · exact natStr_no_dot _ h1
  · rw [intStr_data_nonneg h]
    exact natStr_no_dot _

theorem intStr_injective {a b : Int} (h : intStr a = intStr b) : a = b := by
  have hd := congrArg String.data h
  by_cases ha : a < 0 <;> by_cases hb : b < 0
  · rw [intStr_data_neg ha, intStr_data_neg hb] at hd
    have : natStr a.natAbs = natStr b.natAbs :=
      String.ext (List.cons.injEq .. ▸ hd).2
    have := natStr_injective this
    omega
  · rw [intStr_data_neg ha, intStr_data_nonneg hb] at hd
    exact absurd (hd ▸ List.mem_cons_self '-' _) (natStr_no_minus _)
  · rw [intStr_data_nonneg ha, intStr_data_neg hb] at hd
    exact absurd (hd.symm ▸ List.mem_cons_self '-' _) (natStr_no_minus _)
  · rw [intStr_data_nonneg ha, intStr_data_nonneg hb] at hd
    have := natStr_injective (String.ext hd)
    omega

theorem ratStr_data (q : Rat) :
    (ratStr q).data =
      (intStr q.num).data ++ '.' :: (natStr q.den).data := by
  unfold ratStr
  rw [String.data_append, String.data_append]
  have hdot : (".").data = ['.'] := rfl
  rw [hdot, List.append_assoc]
  rfl

theorem ratStr_no_slash (q : Rat) : ¬ '/' ∈ (ratStr q).data := by
  rw [ratStr_data]
  intro hc
  rcases List.mem_append.mp hc with h | h
  · exact intStr_no_slash _ h
  · rcases List.mem_cons.mp h with h1 | h1
    · exact absurd h1 (by decide)
    · exact natStr_no_slash _ h1


/-- Splitting a list at a separator that occurs in neither prefix is
unambiguous. -/
theorem append_cons_cancel {c : Char} :
    ∀ (a a' b b' : List Char), ¬ c ∈ a → ¬ c ∈ a' →
      a ++ c :: b = a' ++ c :: b' → a = a' ∧ b = b' := by
  intro a
  induction a with
  | nil =>
    intro a' b b' _ ha' h
    cases a' with
    | nil => simpa using h
    | cons x t =>
      exfalso
      simp only [List.nil_append, List.cons_append, List.cons.injEq] at h
      exact ha' (h.1 ▸ List.mem_cons_self x t)
  | cons x t ih =>
    intro a' b b' ha ha' h
    cases a' with
    | nil =>
      exfalso
      simp only [List.nil_append, List.cons_append, List.cons.injEq] at h
      exact ha (h.1 ▸ List.mem_cons_self x t)
    | cons y t' =>
      simp only [List.cons_append, List.cons.injEq] at h
      have hta : ¬ c ∈ t := fun hm => ha (List.mem_cons_of_mem x hm)
      have hta' : ¬ c ∈ t' := fun hm => ha' (List.mem_cons_of_mem y hm)
      obtain ⟨e1, e2⟩ := ih t' b b' hta hta' h.2
      exact ⟨by rw [h.1, e1], e2⟩

/-- The character data of a cache key, written with explicit separators. -/
def keyData (g1 g2 t h m : List Char) : List Char :=
  g1 ++ '/' :: (g2 ++ '/' :: (t ++ '/' :: (h ++ '/' :: m)))

theorem cacheKey_data (g1 g2 : String) (td hh : Int) (mt : Rat) :
    (cacheKey g1 g2 td hh mt).data =
      keyData g1.data g2.data (intStr td).data (intStr hh).data
        (ratStr mt).data := by
  unfold cacheKey keyData
  have hs : ("/").data = ['/'] := rfl
  simp [String.data_append, hs]

theorem keyData_count (g1 g2 t h m : List Char) :
    (keyData g1 g2 t h m).count '/' =
      g1.count '/' + g2.count '/' + t.count '/' + h.count '/' +
        m.count '/' + 4 := by
  simp [keyData, List.count_append, List.count_cons_self]
  omega

theorem keyData_inj_onesided {g1 g2 t h m g1' g2' t' h' m' : List Char}
    (hg1 : ¬ '/' ∈ g1) (hg2 : ¬ '/' ∈ g2) (ht : ¬ '/' ∈ t) (hh : ¬ '/' ∈ h)
    (hm : ¬ '/' ∈ m) (ht' : ¬ '/' ∈ t') (hh' : ¬ '/' ∈ h') (hm' : ¬ '/' ∈ m')
    (heq : keyData g1' g2' t' h' m' = keyData g1 g2 t h m) :
    g1' = g1 ∧ g2' = g2 ∧ t' = t ∧ h' = h ∧ m' = m := by
  have hcnt := congrArg (fun l => List.count '/' l) heq
  simp only [keyData_count] at hcnt
  have hz : ∀ l : List Char, ¬ '/' ∈ l → l.count '/' = 0 := fun l hl =>
    List.count_eq_zero.mpr hl
  rw [hz g1 hg1, hz g2 hg2, hz t ht, hz h hh, hz m hm, hz t' ht',
    hz h' hh', hz m' hm'] at hcnt
  have hg1' : ¬ '/' ∈ g1' := by
    rw [← List.count_eq_zero]; omega
  have hg2' : ¬ '/' ∈ g2' := by
    rw [← List.count_eq_zero]; omega
  unfold keyData at heq
  obtain ⟨e1, r1⟩ := append_cons_cancel g1' g1 _ _ hg1' hg1 heq
  obtain ⟨e2, r2⟩ := append_cons_cancel g2' g2 _ _ hg2' hg2 r1
  obtain ⟨e3, r3⟩ := append_cons_cancel t' t _ _ ht' ht r2
  obtain ⟨e4, e5⟩ := append_cons_cancel h' h _ _ hh' hh r3
  exact ⟨e1, e2, e3, e4, e5⟩

/-- One-sided key injectivity: if a cache key coincides with the key of
a slash-free glyph pair, all five fields agree (the other pair is forced
to be slash-free as well). -/
theorem cacheKey_inj_onesided {g1 g2 g1' g2' : String} {td hh td' hh' : Int}
    {mt mt' : Rat} (h1 : slashFree g1) (h2 : slashFree g2)
    (heq : cacheKey g1' g2' td' hh' mt' = cacheKey g1 g2 td hh mt) :
    g1' = g1 ∧ g2' = g2 ∧ td' = td ∧ hh' = hh ∧ mt' = mt := by
  have hd := congrArg String.data heq
  rw [cacheKey_data, cacheKey_data] at hd
  obtain ⟨e1, e2, e3, e4, e5⟩ :=
    keyData_inj_onesided h1 h2 (intStr_no_slash td) (intStr_no_slash hh)
      (ratStr_no_slash mt) (intStr_no_slash td') (intStr_no_slash hh')
      (ratStr_no_slash mt') hd
  refine ⟨String.ext e1, String.ext e2, intStr_injective (String.ext e3),
    intStr_injective (String.ext e4), ?_⟩
  have hre : ratStr mt' = ratStr mt := String.ext e5
  have hrd := congrArg String.data hre
  rw [ratStr_data, ratStr_data] at hrd
  obtain ⟨f1, f2⟩ :=
    append_cons_cancel _ _ _ _ (intStr_no_dot mt'.num) (intStr_no_dot mt.num)
      hrd
  have hnum : mt'.num = mt.num := intStr_injective (String.ext f1)
  have hden : mt'.den = mt.den := natStr_injective (String.ext f2)
  exact Rat.ext hnum hden

/-! ### Association list facts -/

theorem assocGet_set_self {κ α : Type} [DecidableEq κ] (m : List (κ × α))
    (k : κ) (v : α) : assocGet (assocSet m k v) k = some v := by
  simp [assocGet, assocSet]

theorem assocGet_set_ne {κ α : Type} [DecidableEq κ] (m : List (κ × α))
    (k k' : κ) (v : α) (h : ¬ k = k') :
    assocGet (assocSet m k v) k' = assocGet m k' := by
  simp [assocGet, assocSet, h]

/-- C10: the cache key is the slash-join of the five argument strings;
two distinct argument tuples with slash-free glyph names always receive
distinct keys, while glyph names containing a slash can collide. -/
theorem cache_key_collision_freedom :
    (∀ (g1 g2 g1' g2' : String) (td hh td' hh' : Int) (mt mt' : Rat),
      slashFree g1 → slashFree g2 → slashFree g1' → slashFree g2' →
      cacheKey g1 g2 td hh mt = cacheKey g1' g2' td' hh' mt' →
      g1 = g1' ∧ g2 = g2' ∧ td = td' ∧ hh = hh' ∧ mt = mt') ∧
    (cacheKey ("a/b") ("c") 0 0 0 = cacheKey ("a") ("b/c") 0 0 0 ∧
      ¬ (("a/b" : String) = "a" ∧ ("c" : String) = "b/c")) := by
  refine ⟨?_, ?_, ?_⟩
  · intro g1 g2 g1' g2' td hh td' hh' mt mt' _ _ h3 h4 heq
    exact cacheKey_inj_onesided h3 h4 heq
  · decide
  · decide

/-- Witness for C10: a concrete slash-free instantiation. -/
theorem cache_key_collision_freedom_witness :
    slashFree ("AINf1") ∧ slashFree ("alif") ∧
    (("AINf1" : String) = "AINf1" ∧ ("alif" : String) = "alif" ∧
      (50 : Int) = 50 ∧ (0 : Int) = 0 ∧ (2/5 : Rat) = 2/5) := by
  refine ⟨by decide, by decide, ?_⟩
  exact cache_key_collision_freedom.1 ("AINf1") ("alif") ("AINf1") ("alif")
    50 0 50 0 (2/5) (2/5) (by decide) (by decide) (by decide) (by decide) rfl

/-- C1: calling `determine_kern_cached` twice with the same tuple
returns the same value both times with at most one solver call in total;
a hit returns the stored value without calling the solver, a miss stores
the solver result under the key and returns it. -/
theorem determine_kern_cached_memoizes (cfg : Config) (sh : Shelve)
    (g1 g2 : String) (td hh : Int) (mt : Rat) (v : Int) (sh1 : Shelve)
    (c1 : Nat)
    (h : determine_kern_cached cfg sh g1 g2 td hh mt = (.ok v, sh1, c1)) :
    determine_kern_cached cfg sh1 g1 g2 td hh mt = (.ok v, sh1, 0) ∧
    c1 ≤ 1 ∧
    (∀ w, assocGet sh (cacheKey g1 g2 td hh mt) = some w → v = w ∧ c1 = 0) ∧
    (assocGet sh (cacheKey g1 g2 td hh mt) = none →
      cfg.solver g1 g2 td hh mt = .ok v ∧
      assocGet sh1 (cacheKey g1 g2 td hh mt) = some v ∧ c1 = 1) := by
  simp only [determine_kern_cached] at h ⊢
  cases hget : assocGet sh (cacheKey g1 g2 td hh mt) with
  | some w =>
    rw [hget] at h
    obtain ⟨hv, hsh, hc⟩ : w = v ∧ sh = sh1 ∧ 0 = c1 := by
      simpa using h
    subst hv; subst hsh; subst hc
    refine ⟨by rw [hget], by omega, ?_, ?_⟩
    · intro w2 hw2
      have : w = w2 := by simpa using hw2
      exact ⟨this, rfl⟩
    · intro hnone
      exact absurd hnone (by simp)
  | none =>
    rw [hget] at h
    cases hsol : cfg.solver g1 g2 td hh mt with
    | error e => rw [hsol] at h; simp at h
    | ok r =>
      rw [hsol] at h
      obtain ⟨hv, hsh, hc⟩ :
          r = v ∧ assocSet sh (cacheKey g1 g2 td hh mt) r = sh1 ∧ 1 = c1 := by
        simpa using h
      subst hv; subst hc; subst hsh
      refine ⟨by rw [assocGet_set_self], by omega, ?_, ?_⟩
      · intro w2 hw2
        exact absurd hw2 (by simp)
      · intro _
        exact ⟨rfl, assocGet_set_self .., rfl⟩

/-- A minimal configuration whose solver always succeeds with 7. -/
def cfgTriv : Config :=
  { distance_at_closest := 1
    maxtuck := 0
    solver := fun _ _ _ _ _ => .ok 7
    inits := []
    isols := []
    isols_finas := []
    binned_medis := []
    binned_finas := []
    rsb := fun _ => 0
    lsb := fun _ => 0
    all_above_marks := []
    initialShelve := [] }

/-- Witness for C1: a miss followed by a hit on a concrete key. -/
theorem determine_kern_cached_memoizes_witness :
    determine_kern_cached cfgTriv
        (assocSet [] (cacheKey ("beh") ("alif") 1 0 0) 7) ("beh") ("alif")
        1 0 0
      = (.ok 7, assocSet [] (cacheKey ("beh") ("alif") 1 0 0) 7, 0) ∧
    cfgTriv.solver ("beh") ("alif") 1 0 0 = .ok 7 := by
  have h : determine_kern_cached cfgTriv [] ("beh") ("alif") 1 0 0 =
      (.ok 7, assocSet [] (cacheKey ("beh") ("alif") 1 0 0) 7, 1) := rfl
  obtain ⟨hsecond, _, _, hmiss⟩ :=
    determine_kern_cached_memoizes cfgTriv [] ("beh") ("alif") 1 0 0 7 _ 1 h
  exact ⟨hsecond, (hmiss rfl).1⟩

/-! ### Soundness of the shelve and correctness of the table build -/

theorem assocGet_append_some {κ α : Type} [DecidableEq κ]
    {a : List (κ × α)} (b : List (κ × α)) {k : κ} {v : α}
    (h : assocGet a k = some v) : assocGet (a ++ b) k = some v := by
  induction a with
  | nil => simp [assocGet] at h
  | cons p rest ih =>
    obtain ⟨k0, v0⟩ := p
    rw [List.cons_append]
    simp only [assocGet] at h ⊢
    by_cases hk : k0 = k
    · rw [if_pos hk] at h
      rw [if_pos hk]
      exact h
    · rw [if_neg hk] at h
      rw [if_neg hk]
      exact ih h

theorem assocGet_append_none {κ α : Type} [DecidableEq κ]
    {a : List (κ × α)} (b : List (κ × α)) {k : κ}
    (h : assocGet a k = none) : assocGet (a ++ b) k = assocGet b k := by
  induction a with
  | nil => rfl
  | cons p rest ih =>
    obtain ⟨k0, v0⟩ := p
    rw [List.cons_append]
    simp only [assocGet] at h ⊢
    by_cases hk : k0 = k
    · rw [if_pos hk] at h; cases h
    · rw [if_neg hk] at h
      rw [if_neg hk]
      exact ih h

/-- The shelve is sound for the solver: a value stored under the key of
a slash-free glyph pair is what the solver returns for that tuple
(covers both the shelve carried over from previous runs and entries
written during this run; the solver is deterministic). -/
def shelveSound (cfg : Config) (sh : Shelve) : Prop :=
  ∀ (g1 g2 : String) (td hh : Int) (mt : Rat) (v : Int),
    slashFree g1 → slashFree g2 →
    assocGet sh (cacheKey g1 g2 td hh mt) = some v →
    cfg.solver g1 g2 td hh mt = .ok v

theorem shelveSound_nil (cfg : Config) : shelveSound cfg [] := by
  intro g1 g2 td hh mt v _ _ h
  cases h

/-- A cache write made by `determine_kern_cached` preserves soundness,
whatever the glyph names of the written pair are. -/
theorem determine_kern_cached_preserves_sound (cfg : Config) (sh : Shelve)
    (a b : String) (td hh : Int) (mt : Rat) (res : Except String Int)
    (sh1 : Shelve) (c : Nat) (hsound : shelveSound cfg sh)
    (h : determine_kern_cached cfg sh a b td hh mt = (res, sh1, c)) :
    shelveSound cfg sh1 := by
  simp only [determine_kern_cached] at h
  cases hget : assocGet sh (cacheKey a b td hh mt) with
  | some w =>
    rw [hget] at h
    obtain ⟨_, hsh, _⟩ : (Except.ok w : Except String Int) = res ∧
        sh = sh1 ∧ 0 = c := by simpa using h
    exact hsh ▸ hsound
  | none =>
    rw [hget] at h
    cases hsol : cfg.solver a b td hh mt with
    | error e =>
      rw [hsol] at h
      obtain ⟨_, hsh, _⟩ : (Except.error e : Except String Int) = res ∧
          sh = sh1 ∧ 1 = c := by simpa using h
      exact hsh ▸ hsound
    | ok r =>
      rw [hsol] at h
      obtain ⟨_, hsh, _⟩ : (Except.ok r : Except String Int) = res ∧
          assocSet sh (cacheKey a b td hh mt) r = sh1 ∧ 1 = c := by
        simpa using h
      subst hsh
      intro g1 g2 td2 hh2 mt2 v hf1 hf2 hlook
      by_cases hkey : cacheKey a b td hh mt = cacheKey g1 g2 td2 hh2 mt2
      · obtain ⟨e1, e2, e3, e4, e5⟩ := cacheKey_inj_onesided hf1 hf2 hkey
        rw [hkey, assocGet_set_self] at hlook
        obtain rfl : r = v := by simpa using hlook
        rw [← e1, ← e2, ← e3, ← e4, ← e5]
        exact hsol
      · rw [assocGet_set_ne sh _ _ r hkey] at hlook
        exact hsound g1 g2 td2 hh2 mt2 v hf1 hf2 hlook

/-- Under a sound shelve, `determine_kern_cached` for a slash-free pair
returns exactly the solver's value. -/
theorem determine_kern_cached_sound_value (cfg : Config) (sh : Shelve)
    (a b : String) (td hh : Int) (mt : Rat) (k : Int)
    (res : Except String Int) (sh1 : Shelve) (c : Nat)
    (hsound : shelveSound cfg sh) (hfa : slashFree a) (hfb : slashFree b)
    (hsol : cfg.solver a b td hh mt = .ok k)
    (h : determine_kern_cached cfg sh a b td hh mt = (res, sh1, c)) :
    res = .ok k := by
  simp only [determine_kern_cached] at h
  cases hget : assocGet sh (cacheKey a b td hh mt) with
  | some w =>
    rw [hget] at h
    obtain ⟨hr, _, _⟩ : (Except.ok w : Except String Int) = res ∧
        sh = sh1 ∧ 0 = c := by simpa using h
    have := hsound a b td hh mt w hfa hfb hget
    rw [hsol] at this
    obtain rfl : k = w := by simpa using this
    exact hr.symm
  | none =>
    rw [hget, hsol] at h
    obtain ⟨hr, _, _⟩ : (Except.ok k : Except String Int) = res ∧
        assocSet sh (cacheKey a b td hh mt) k = sh1 ∧ 1 = c := by
      simpa using h
    exact hr.symm

/-- Row lookup into a built kern table. -/
def lookup2 (tbl : List (String × List (String × Int))) (right left : String) :
    Option Int :=
  match assocGet tbl right with
  | none => none
  | some row => assocGet row left

theorem assocGet_ifhead_ne (cond : Prop) [Decidable cond] (k0 k : String)
    (v : Int) (h : ¬ k0 = k) :
    assocGet (if cond then [(k0, v)] else []) k = none := by
  split
  · simp [assocGet, h]
  · rfl

theorem buildRow_spec (cfg : Config) (r : Int) (right : String) :
    ∀ (lefts : List String) (sh : Shelve) (row : List (String × Int))
      (sh1 : Shelve) (c : Nat),
      shelveSound cfg sh →
      buildRow cfg r right lefts sh = .ok (row, sh1, c) →
      shelveSound cfg sh1 ∧
      (∀ l, ¬ l ∈ lefts → assocGet row l = none) ∧
      (∀ l k, l ∈ lefts → slashFree l → slashFree right →
        cfg.solver l right cfg.distance_at_closest r cfg.maxtuck = .ok k →
        assocGet row l =
          if k < -10 then some (quantize (k : Rat) kern_quantization)
          else none) := by
  intro lefts
  induction lefts with
  | nil =>
    intro sh row sh1 c hsound h
    simp only [buildRow] at h
    obtain ⟨hrow, hsh, _⟩ : ([] : List (String × Int)) = row ∧ sh = sh1 ∧
        0 = c := by simpa using h
    subst hrow; subst hsh
    exact ⟨hsound, fun l _ => rfl, fun l k hl => absurd hl (by simp)⟩
  | cons left rest ih =>
    intro sh row sh1 c hsound h
    simp only [buildRow] at h
    rcases hdkc : determine_kern_cached cfg sh left right
        cfg.distance_at_closest r cfg.maxtuck with ⟨res, shm, cm⟩
    rw [hdkc] at h
    cases res with
    | error e => simp at h
    | ok kern =>
      have hsoundm : shelveSound cfg shm :=
        determine_kern_cached_preserves_sound cfg sh left right
          cfg.distance_at_closest r cfg.maxtuck (.ok kern) shm cm hsound hdkc
      have hred : (match buildRow cfg r right rest shm with
          | Except.error e => Except.error e
          | Except.ok (row2, sh2, c2) =>
            Except.ok ((if kern < -10 then
                [(left, quantize (kern : Rat) kern_quantization)]
              else []) ++ row2, sh2, cm + c2)) = Except.ok (row, sh1, c) := h
      clear h
      cases hrest : buildRow cfg r right rest shm with
      | error e => rw [hrest] at hred; simp at hred
      | ok trip =>
        obtain ⟨row2, sh2, c2⟩ := trip
        rw [hrest] at hred
        obtain ⟨hrow, hsh, _⟩ :
            ((if kern < -10 then
                [(left, quantize (kern : Rat) kern_quantization)]
              else []) ++ row2) = row ∧ sh2 = sh1 ∧ cm + c2 = c := by
          simpa using hred
        subst hrow; subst hsh
        obtain ⟨hs2, hnone2, hval2⟩ := ih shm row2 sh2 c2 hsoundm hrest
        refine ⟨hs2, ?_, ?_⟩
        · intro l hl
          have hlh : ¬ left = l := by
            intro he
            exact hl (by rw [← he]; exact List.mem_cons_self left rest)
          have hlr : ¬ l ∈ rest := fun hm => hl (List.mem_cons_of_mem left hm)
          rw [assocGet_append_none _ (assocGet_ifhead_ne _ left l _ hlh)]
          exact hnone2 l hlr
        · intro l k hl hfl hfr hsol
          by_cases hll : l = left
          · subst hll
            have hkk : (Except.ok kern : Except String Int) = Except.ok k :=
              determine_kern_cached_sound_value cfg sh l right
                cfg.distance_at_closest r cfg.maxtuck k (.ok kern) shm cm
                hsound hfl hfr hsol hdkc
            obtain rfl : kern = k := by simpa using hkk
            by_cases hneg : kern < -10
            · rw [if_pos hneg, if_pos hneg]
              have hh : assocGet
                  [(l, quantize (kern : Rat) kern_quantization)] l =
                  some (quantize (kern : Rat) kern_quantization) := by
                simp [assocGet]
              exact assocGet_append_some _ hh
            · rw [if_neg hneg, if_neg hneg, List.nil_append]
              by_cases hlr : l ∈ rest
              · have hv := hval2 l kern hlr hfl hfr hsol
                rw [if_neg hneg] at hv
                exact hv
              · exact hnone2 l hlr
          · have hlr : l ∈ rest := by
              rcases List.mem_cons.mp hl with he | hm
              · exact absurd he hll
              · exact hm
            have hlh : ¬ left = l := fun he => hll he.symm
            rw [assocGet_append_none _ (assocGet_ifhead_ne _ left l _ hlh)]
            exact hval2 l k hlr hfl hfr hsol

theorem buildKernTable_spec (cfg : Config) (r : Int) (lefts : List String) :
    ∀ (rights : List String) (sh : Shelve)
      (tbl : List (String × List (String × Int))) (sh1 : Shelve) (c : Nat),
      shelveSound cfg sh →
      buildKernTable cfg r rights lefts sh = .ok (tbl, sh1, c) →
      shelveSound cfg sh1 ∧
      (∀ rg l k, rg ∈ rights → l ∈ lefts → slashFree l → slashFree rg →
        cfg.solver l rg cfg.distance_at_closest r cfg.maxtuck = .ok k →
        lookup2 tbl rg l =
          if k < -10 then some (quantize (k : Rat) kern_quantization)
          else none) := by
  intro rights
  induction rights with
  | nil =>
    intro sh tbl sh1 c hsound h
    simp only [buildKernTable] at h
    obtain ⟨htbl, hsh, _⟩ :
        ([] : List (String × List (String × Int))) = tbl ∧ sh = sh1 ∧
          0 = c := by simpa using h
    subst htbl; subst hsh
    exact ⟨hsound, fun rg l k hrg => absurd hrg (by simp)⟩
  | cons right rest ih =>
    intro sh tbl sh1 c hsound h
    simp only [buildKernTable] at h
    cases hrow : buildRow cfg r right lefts sh with
    | error e => rw [hrow] at h; simp at h
    | ok trip =>
      obtain ⟨row, shm, cm⟩ := trip
      rw [hrow] at h
      have hred : (match buildKernTable cfg r rest lefts shm with
          | Except.error e => Except.error e
          | Except.ok (tbl2, sh2, c2) =>
            Except.ok ((right, row) :: tbl2, sh2, cm + c2)) =
          Except.ok (tbl, sh1, c) := h
      clear h
      obtain ⟨hsm, _, hrval⟩ :=
        buildRow_spec cfg r right lefts sh row shm cm hsound hrow
      cases hrest : buildKernTable cfg r rest lefts shm with
      | error e => rw [hrest] at hred; simp at hred
      | ok trip2 =>
        obtain ⟨tbl2, sh2, c2⟩ := trip2
        rw [hrest] at hred
        obtain ⟨htbl, hsh, _⟩ : ((right, row) :: tbl2) = tbl ∧ sh2 = sh1 ∧
            cm + c2 = c := by simpa using hred
        subst htbl; subst hsh
        obtain ⟨hs2, hval2⟩ := ih shm tbl2 sh2 c2 hsm hrest
        refine ⟨hs2, ?_⟩
        intro rg l k hrg hl hfl hfrg hsol
        by_cases hrr : rg = right
        · subst hrr
          have hstep : lookup2 ((rg, row) :: tbl2) rg l = assocGet row l := by
            simp [lookup2, assocGet]
          rw [hstep]
          exact hrval l k hl hfl hfrg hsol
        · have hrg2 : rg ∈ rest := by
            rcases List.mem_cons.mp hrg with he | hm
            · exact absurd he hrr
            · exact hm
          have hne : ¬ right = rg := fun he => hrr he.symm
          have hstep : lookup2 ((right, row) :: tbl2) rg l =
              lookup2 tbl2 rg l := by
            simp [lookup2, assocGet, hne]
          rw [hstep]
          exact hval2 rg l k hrg2 hl hfl hfrg hsol

/-- C3: while building the kern table for a rise, a (right, left) pair
receives an entry exactly when the solver adjustment is strictly below
-10, and the recorded value is the adjustment quantized to steps of 10.
The shelve must be sound for the (deterministic) solver, and the glyph
names slash-free, as real glyph names are. -/
theorem kern_table_entry_iff (cfg : Config) (r : Int)
    (rights lefts : List String) (sh : Shelve)
    (tbl : List (String × List (String × Int))) (sh1 : Shelve) (c : Nat)
    (right left : String) (k : Int)
    (hsound : shelveSound cfg sh)
    (hbuild : buildKernTable cfg r rights lefts sh = .ok (tbl, sh1, c))
    (hr : right ∈ rights) (hl : left ∈ lefts)
    (hfl : slashFree left) (hfr : slashFree right)
    (hsol : cfg.solver left right cfg.distance_at_closest r cfg.maxtuck
      = .ok k) :
    lookup2 tbl right left =
      if k < -10 then some (quantize (k : Rat) kern_quantization)
      else none :=
  (buildKernTable_spec cfg r lefts rights sh tbl sh1 c hsound hbuild).2
    right left k hr hl hfl hfr hsol

/-- The configuration of the recording-threshold scenario: the solver
reports -15 for left glyph C and -5 for every other left glyph. -/
def cfg3 : Config :=
  { distance_at_closest := 50
    maxtuck := 0
    solver := fun l _ _ _ _ => if l = "C" then .ok (-15) else .ok (-5)
    inits := ["A", "C"]
    isols := []
    isols_finas := ["B", "D"]
    binned_medis := []
    binned_finas := []
    rsb := fun _ => 0
    lsb := fun _ => 0
    all_above_marks := []
    initialShelve := [] }

def bk3 : Except String ((List (String × List (String × Int))) × Shelve × Nat) :=
  buildKernTable cfg3 0 (["B", "D"]) (["A", "C"]) []

def tbl3 : List (String × List (String × Int)) :=
  match bk3 with
  | .ok (t, _, _) => t
  | .error _ => []

def sh3 : Shelve :=
  match bk3 with
  | .ok (_, s, _) => s
  | .error _ => []

def c3count : Nat :=
  match bk3 with
  | .ok (_, _, c) => c
  | .error _ => 0

/-- Witness for C3: with an empty (sound) shelve, the pair whose solver
value is -15 gets the quantized entry -20, the pair with -5 gets none. -/
theorem kern_table_entry_iff_witness :
    cfg3.solver ("C") ("D") cfg3.distance_at_closest 0 cfg3.maxtuck
      = .ok (-15) ∧
    cfg3.solver ("A") ("B") cfg3.distance_at_closest 0 cfg3.maxtuck
      = .ok (-5) ∧
    lookup2 tbl3 ("D") ("C") = some (-20) ∧
    lookup2 tbl3 ("B") ("A") = none := by
  have hbuild : buildKernTable cfg3 0 (["B", "D"]) (["A", "C"]) [] =
      .ok (tbl3, sh3, c3count) := by with_unfolding_all rfl
  have h1 := kern_table_entry_iff cfg3 0 (["B", "D"]) (["A", "C"]) [] tbl3 sh3
    c3count ("D") ("C") (-15) (shelveSound_nil cfg3) hbuild (by simp)
    (by simp) (by decide) (by decide) rfl
  have h2 := kern_table_entry_iff cfg3 0 (["B", "D"]) (["A", "C"]) [] tbl3 sh3
    c3count ("B") ("A") (-5) (shelveSound_nil cfg3) hbuild (by simp)
    (by simp) (by decide) (by decide) rfl
  exact ⟨rfl, rfl, h1.trans (by with_unfolding_all rfl),
    h2.trans (by with_unfolding_all rfl)⟩

/-- C4: in the main enumeration, every sequence whose quantized
aggregate rise reaches the 600 cap is emitted with rise exactly 600, and
the final bin is dropped from the context exactly at the maximum word
length 5; shorter lengths keep it. -/
theorem rise_clamp_and_final_drop (i : Nat) (seq : List (List String × Rat))
    (h : 600 ≤ quantize ((seq.map Prod.snd).sum) 100) :
    riseAndContext i seq =
      some (600,
        if i = 5 then ((seq.map Prod.fst).reverse).dropLast
        else (seq.map Prod.fst).reverse) := by
  simp only [riseAndContext, rise_quantization, maximum_rise,
    maximum_word_length]
  rw [if_neg (by omega), if_pos h]

/-- The tall witness sequence: raw aggregate rise 850. -/
def seq850 : List (List String × Rat) :=
  [(["F"], 450), (["M1"], 100), (["M2"], 100), (["M3"], 100), (["M4"], 100),
   (["M5"], 0)]

/-- Witness for C4: raw rise 850 quantizes over the cap; at length 5 the
final bin `["F"]` is dropped, at length 2 it is retained. -/
theorem rise_clamp_and_final_drop_witness :
    (600 : Int) ≤ quantize ((seq850.map Prod.snd).sum) 100 ∧
    riseAndContext 5 seq850 =
      some (600, [["M5"], ["M4"], ["M3"], ["M2"], ["M1"]]) ∧
    riseAndContext 2 seq850 =
      some (600, [["M5"], ["M4"], ["M3"], ["M2"], ["M1"], ["F"]]) := by
  have hq : quantize ((seq850.map Prod.snd).sum) 100 = 800 := by
    with_unfolding_all rfl
  have hsum : (600 : Int) ≤ quantize ((seq850.map Prod.snd).sum) 100 := by
    omega
  refine ⟨hsum, ?_, ?_⟩
  · exact (rise_clamp_and_final_drop 5 seq850 hsum).trans (by rfl)
  · exact (rise_clamp_and_final_drop 2 seq850 hsum).trans (by rfl)

/-- C7 (amended): when the innermost context group contains a blocker,
the emitted rules are: the base rule with blockers filtered out of the
innermost group, then (only when the context has more than one group)
the rule whose innermost group is exactly the blocker list, and then
(only when the rise is at least 400 and `i > 4`) the bari-ye override
rule.  With one group and no override, only the filtered rule remains. -/
theorem blocker_split_spec (cfg : Config) (i : Nat) (wtr : Int)
    (pcInit : List (List String)) (grp : List String) (lk : RoutRef)
    (hb : (blockers.any fun b => grp.contains b) = true) :
    ((¬ pcInit = []) → (¬ (400 ≤ wtr ∧ 4 < i)) →
      rulesForContext cfg i wtr (pcInit ++ [grp]) lk =
        [Rule.chaining [cfg.isols_finas]
            (cfg.inits :: (pcInit ++ [grp.filter fun g => !blockers.contains g]))
            [[lk]],
         Rule.chaining [cfg.isols_finas]
            (cfg.inits :: (pcInit ++ [blockers])) [[lk]]]) ∧
    ((¬ pcInit = []) → (400 ≤ wtr ∧ 4 < i) →
      rulesForContext cfg i wtr (pcInit ++ [grp]) lk =
        [Rule.chaining [cfg.isols_finas]
            (cfg.inits :: (pcInit ++ [grp.filter fun g => !blockers.contains g]))
            [[lk]],
         Rule.chaining [cfg.isols_finas]
            (cfg.inits :: (pcInit ++ [blockers])) [[lk]],
         Rule.chaining [cfg.isols_finas]
            (cfg.inits :: (pcInit ++ [["BARI_YEf1"]])) [[lk]]]) ∧
    (pcInit = [] → (¬ (400 ≤ wtr ∧ 4 < i)) →
      rulesForContext cfg i wtr (pcInit ++ [grp]) lk =
        [Rule.chaining [cfg.isols_finas]
            (cfg.inits :: [grp.filter fun g => !blockers.contains g])
            [[lk]]]) := by
  have hbp : ∃ x ∈ blockers, x ∈ grp := by simpa using hb
  refine ⟨?_, ?_, ?_⟩
  · intro hne hnb
    have hlen : 0 < pcInit.length := List.length_pos.mpr hne
    simp [rulesForContext, List.getLastD_concat, List.dropLast_concat, hbp,
      hnb, Nat.succ_lt_succ_iff, hlen]
  · intro hne hyes
    have hlen : 0 < pcInit.length := List.length_pos.mpr hne
    simp [rulesForContext, List.getLastD_concat, List.dropLast_concat, hbp,
      hyes.1, hyes.2, Nat.succ_lt_succ_iff, hlen]
  · intro hnil hnb
    subst hnil
    simp [rulesForContext, List.getLastD_concat, List.dropLast_concat, hbp,
      hnb]

/-- Counterexample for C7 as stated: with a blocker in the innermost
group, a two-group context, rise 400 and length i = 5, THREE chaining
rules are emitted for the context (the bari-ye override joins the
blocker pair), not exactly two. -/
theorem blocker_split_three_rules :
    (blockers.any fun b =>
      (["AINf1", "X", "Y"] : List String).contains b) = true ∧
    (1 : Nat) < ([["M"], ["AINf1", "X", "Y"]] : List (List String)).length ∧
    (rulesForContext cfgTriv 5 400 [["M"], ["AINf1", "X", "Y"]]
      ⟨0, "kern_at_400"⟩).length = 3 := by
  refine ⟨by decide, by decide, ?_⟩
  rfl

/-- Witness for C7 (amended): a concrete two-group context away from
the override case yields exactly the two rules, in order. -/
theorem blocker_split_spec_witness :
    (blockers.any fun b => (["AINf1", "X"] : List String).contains b)
      = true ∧
    rulesForContext cfgTriv 0 0 [["M"], ["AINf1", "X"]] ⟨3, "kern_at_0"⟩ =
      [Rule.chaining [cfgTriv.isols_finas]
          (cfgTriv.inits :: ([["M"]] ++
            [(["AINf1", "X"] : List String).filter fun g =>
              !blockers.contains g]))
          [[⟨3, "kern_at_0"⟩]],
       Rule.chaining [cfgTriv.isols_finas]
          (cfgTriv.inits :: ([["M"]] ++ [blockers]))
          [[⟨3, "kern_at_0"⟩]]] := by
  refine ⟨by decide, ?_⟩
  exact (blocker_split_spec cfgTriv 0 0 [["M"]] (["AINf1", "X"])
    ⟨3, "kern_at_0"⟩ (by decide)).1 (by decide) (by decide)

/-- C8 (amended): `AtHeight` emits a rule exactly when the quantized —
but never discarded, clamped or final-dropped — rise lies in the closed
interval, with the context exactly the reversed sequence and the
caller-supplied routine as the only lookup; on rises in [0, 600) its
(context, rise) pair agrees with the main compiler's enumeration. -/
theorem at_height_emission_spec (isf ins : List String) (tr : RoutRef)
    (lower upper : Int) (i : Nat) (seq : List (List String × Rat)) :
    (∀ ru, atHeightRule isf ins tr lower upper seq = some ru ↔
      (lower ≤ quantize ((seq.map Prod.snd).sum) 100 ∧
       quantize ((seq.map Prod.snd).sum) 100 ≤ upper ∧
       ru = Rule.chaining [isf, ins] ((seq.map Prod.fst).reverse)
         [[tr], []])) ∧
    (0 ≤ quantize ((seq.map Prod.snd).sum) 100 →
     quantize ((seq.map Prod.snd).sum) 100 < 600 →
     riseAndContext i seq =
       some (quantize ((seq.map Prod.snd).sum) 100,
         (seq.map Prod.fst).reverse)) := by
  refine ⟨?_, ?_⟩
  · intro ru
    simp only [atHeightRule, rise_quantization]
    by_cases hc : lower ≤ quantize ((seq.map Prod.snd).sum) 100 ∧
        quantize ((seq.map Prod.snd).sum) 100 ≤ upper
    · rw [if_pos hc]
      constructor
      · intro h
        have hru : Rule.chaining [isf, ins] ((seq.map Prod.fst).reverse)
            [[tr], []] = ru := by simpa using h
        exact ⟨hc.1, hc.2, hru.symm⟩
      · rintro ⟨_, _, h3⟩
        rw [h3]
    · rw [if_neg hc]
      constructor
      · intro h; cases h
      · rintro ⟨h1, h2, _⟩
        exact absurd ⟨h1, h2⟩ hc
  · intro h0 h600
    simp only [riseAndContext, rise_quantization, maximum_rise]
    rw [if_neg (by omega), if_neg (by omega)]

/-- Counterexample for C8 as stated: a negative aggregate (-100), which
the main enumeration discards, still produces an `AtHeight` rule when
the interval admits it; and a raw rise of 850 — clamped to 600 by the
main enumeration — produces NO rule for the band [600, 600] because
`AtHeight` compares the unclamped 800. -/
theorem at_height_no_discard_no_clamp :
    atHeightRule [] [] ⟨0, "t"⟩ (-200) 0 [(["g"], -100)] =
      some (Rule.chaining [[], []] [["g"]] [[⟨0, "t"⟩], []]) ∧
    riseAndContext 0 [(["g"], -100)] = none ∧
    riseAndContext 0 [(["F"], 850)] = some (600, [["F"]]) ∧
    atHeightRule [] [] ⟨0, "t"⟩ 600 600 [(["F"], 850)] = none := by
  refine ⟨?_, ?_, ?_, ?_⟩ <;> with_unfolding_all rfl

/-- Witness for C8 (amended): a rise of 400 inside the band [0, 600]
emits the rule, and the enumeration agreement holds there. -/
theorem at_height_emission_spec_witness :
    atHeightRule (["A"]) (["I"]) ⟨2, "target"⟩ 0 600 [(["g"], 400)] =
      some (Rule.chaining [["A"], ["I"]] [["g"]] [[⟨2, "target"⟩], []]) ∧
    riseAndContext 0 [(["g"], 400)] = some (400, [["g"]]) := by
  have hq : quantize (([(["g"], (400 : Rat))].map Prod.snd).sum) 100 = 400 := by
    with_unfolding_all rfl
  have hspec := at_height_emission_spec (["A"]) (["I"]) ⟨2, "target"⟩ 0 600 0
    [(["g"], 400)]
  constructor
  · exact (hspec.1 _).mpr ⟨by rw [hq]; decide, by rw [hq]; decide, by rfl⟩
  · have h2 := hspec.2 (by rw [hq]; decide) (by rw [hq]; decide)
    rw [hq] at h2
    exact h2.trans (by rfl)

/-- First positioning rule for the glyph pair, returning its xAdvance. -/
def findPos (rules : List Rule) (right left : String) : Option Int :=
  match rules with
  | [] => none
  | Rule.positioning g vs :: rest =>
    if g = [[right], [left]] then some (vs.getD 1 0)
    else findPos rest right left
  | _ :: rest => findPos rest right left

theorem findPos_append (a b : List Rule) (r l : String) :
    findPos (a ++ b) r l =
      match findPos a r l with
      | some v => some v
      | none => findPos b r l := by
  induction a with
  | nil => rfl
  | cons ru rest ih =>
    cases ru with
    | positioning g vs =>
      rw [List.cons_append]
      simp only [findPos]
      by_cases hg : g = [[r], [l]]
      · rw [if_pos hg, if_pos hg]
      · rw [if_neg hg, if_neg hg, ih]
    | chaining t p lks =>
      rw [List.cons_append]
      simp only [findPos]
      exact ih

theorem findPos_inkRow_ne (cfg : Config) (rdist : Rat) (right0 : String)
    (lefts : List String) (r l : String) (hne : ¬ r = right0) :
    findPos (inkRow cfg rdist right0 lefts) r l = none := by
  induction lefts with
  | nil => rfl
  | cons l0 rest ih =>
    simp only [inkRow, List.filterMap_cons] at ih ⊢
    by_cases h0 : inkVal cfg rdist right0 l0 = 0
    · rw [if_pos h0]
      exact ih
    · rw [if_neg h0]
      simp only [findPos]
      have hgne : ¬ ([[right0], [l0]] : List (List String)) = [[r], [l]] := by
        intro he
        have h1 : right0 = r := by
          have := congrArg (fun x => List.getD x 0 []) he
          simpa using this
        exact hne h1.symm
      rw [if_neg hgne]
      exact ih

theorem findPos_inkRow_self (cfg : Config) (rdist : Rat) (right0 : String)
    (lefts : List String) (l : String) :
    (l ∈ lefts → findPos (inkRow cfg rdist right0 lefts) right0 l =
      (if inkVal cfg rdist right0 l = 0 then none
       else some (inkVal cfg rdist right0 l))) ∧
    (¬ l ∈ lefts → findPos (inkRow cfg rdist right0 lefts) right0 l = none)
    := by
  induction lefts with
  | nil => exact ⟨fun hl => absurd hl (by simp), fun _ => rfl⟩
  | cons l0 rest ih =>
    have hgaux : ∀ lx : String, ¬ l = lx →
        ¬ ([[right0], [lx]] : List (List String)) = [[right0], [l]] := by
      intro lx hll he
      have h1 : lx = l := by
        have := congrArg (fun x => List.getD x 1 []) he
        simpa using this
      exact hll h1.symm
    constructor
    · intro hl
      simp only [inkRow, List.filterMap_cons]
      by_cases h0 : inkVal cfg rdist right0 l0 = 0
      · rw [if_pos h0]
        by_cases hll : l = l0
        · subst hll
          rw [if_pos h0]
          by_cases hlr : l ∈ rest
          · have hv := ih.1 hlr
            rw [if_pos h0] at hv
            exact hv
          · exact ih.2 hlr
        · rcases List.mem_cons.mp hl with he | hm
          · exact absurd he hll
          · exact ih.1 hm
      · rw [if_neg h0]
        simp only [findPos]
        by_cases hll : l = l0
        · subst hll
          rw [if_pos rfl, if_neg h0]
          rfl
        · rw [if_neg (hgaux l0 hll)]
          rcases List.mem_cons.mp hl with he | hm
          · exact absurd he hll
          · exact ih.1 hm
    · intro hl
      have hll : ¬ l = l0 := fun he =>
        hl (by rw [he]; exact List.mem_cons_self l0 rest)
      have hlr : ¬ l ∈ rest := fun hm => hl (List.mem_cons_of_mem l0 hm)
      simp only [inkRow, List.filterMap_cons]
      by_cases h0 : inkVal cfg rdist right0 l0 = 0
      · rw [if_pos h0]
        exact ih.2 hlr
      · rw [if_neg h0]
        simp only [findPos]
        rw [if_neg (hgaux l0 hll)]
        exact ih.2 hlr

theorem findPos_inkRules_not_mem (cfg : Config) (rdist : Rat)
    (rights lefts : List String) (r l : String) (hr : ¬ r ∈ rights) :
    findPos (inkRules cfg rdist rights lefts) r l = none := by
  induction rights with
  | nil => rfl
  | cons r0 rest ih =>
    have hne : ¬ r = r0 := fun he =>
      hr (by rw [he]; exact List.mem_cons_self r0 rest)
    have hrr : ¬ r ∈ rest := fun hm => hr (List.mem_cons_of_mem r0 hm)
    simp only [inkRules, List.flatMap_cons] at ih ⊢
    rw [findPos_append, findPos_inkRow_ne cfg rdist r0 lefts r l hne]
    exact ih hrr

theorem findPos_inkRules (cfg : Config) (rdist : Rat)
    (rights lefts : List String) (r l : String) (hr : r ∈ rights)
    (hl : l ∈ lefts) :
    findPos (inkRules cfg rdist rights lefts) r l =
      (if inkVal cfg rdist r l = 0 then none
       else some (inkVal cfg rdist r l)) := by
  induction rights with
  | nil => exact absurd hr (by simp)
  | cons r0 rest ih =>
    simp only [inkRules, List.flatMap_cons] at ih ⊢
    rw [findPos_append]
    by_cases hrr : r = r0
    · subst hrr
      rw [(findPos_inkRow_self cfg rdist r lefts l).1 hl]
      by_cases h0 : inkVal cfg rdist r l = 0
      · rw [if_pos h0]
        show findPos (rest.flatMap fun right => inkRow cfg rdist right lefts)
            r l = none
        by_cases hmem : r ∈ rest
        · have hv := ih hmem
          rw [if_pos h0] at hv
          exact hv
        · have hnm := findPos_inkRules_not_mem cfg rdist rest lefts r l hmem
          simp only [inkRules] at hnm
          exact hnm
      · rw [if_neg h0]
    · rw [findPos_inkRow_ne cfg rdist r0 lefts r l hrr]
      have hmem : r ∈ rest := by
        rcases List.mem_cons.mp hr with he | hm
        · exact absurd he hrr
        · exact hm
      exact ih hmem

/-- C6 (amended): in the ink-to-ink table for rise `r`, the adjustment
emitted for a (right, left) pair is the integer truncation of
`r_distance - (max(left.rsb, 0) + max(right.lsb, 0))` — the LEFT glyph
contributes its right side bearing and the RIGHT glyph its left side
bearing — and a rule exists exactly when that value is nonzero; the
base distance is halved at rise 100 and multiplied by 1/5 at rises 200
and 300. -/
theorem ink_to_ink_value_spec (cfg : Config) (st : KernState) (r : Int)
    (right left : String)
    (hmemo : assocGet st.ink_to_ink_routines r = none)
    (hr : right ∈ cfg.isols_finas) (hl : left ∈ cfg.inits ++ cfg.isols) :
    findPos (ink_to_ink_at cfg st r).1.rules right left =
      (if inkVal cfg (ink_r_distance cfg r) right left = 0 then none
       else some (inkVal cfg (ink_r_distance cfg r) right left)) ∧
    ink_r_distance cfg 100 = (cfg.distance_at_closest : Rat) * (1/2) ∧
    ink_r_distance cfg 200 = (cfg.distance_at_closest : Rat) * (1/5) ∧
    ink_r_distance cfg 300 = (cfg.distance_at_closest : Rat) * (1/5) := by
  refine ⟨?_, by simp [ink_r_distance], by simp [ink_r_distance],
    by simp [ink_r_distance]⟩
  have hstep : (ink_to_ink_at cfg st r).1.rules =
      inkRules cfg (ink_r_distance cfg r) cfg.isols_finas
        (cfg.inits ++ cfg.isols) := by
    simp only [ink_to_ink_at, hmemo]
  rw [hstep]
  exact findPos_inkRules cfg (ink_r_distance cfg r) cfg.isols_finas
    (cfg.inits ++ cfg.isols) right left hr hl

/-- The bearing-swap scenario: left glyph L has rsb 5, right glyph R has
lsb 3, base distance 100. -/
def cfgInk : Config :=
  { distance_at_closest := 100
    maxtuck := 0
    solver := fun _ _ _ _ _ => .ok 0
    inits := ["L"]
    isols := []
    isols_finas := ["R"]
    binned_medis := []
    binned_finas := []
    rsb := fun g => if g = "L" then 5 else 0
    lsb := fun g => if g = "R" then 3 else 0
    all_above_marks := []
    initialShelve := [] }

/-- The empty run state. -/
def st0 : KernState :=
  { shelve := []
    kern_at_rise := []
    ink_to_ink_routines := []
    nextId := 0
    solverCalls := 0 }

/-- Counterexample for C6 as stated: the code emits
`100 - (max(L.rsb, 0) + max(R.lsb, 0)) = 92` for the pair (R, L), while
the claim's formula `100 - (max(R.rsb, 0) + max(L.lsb, 0))` yields 100;
and a fractional tapered distance is truncated by `int()` (12.5 - 8
gives 4, not 4.5). -/
theorem ink_to_ink_bearing_mismatch :
    findPos (ink_to_ink_at cfgInk st0 0).1.rules ("R") ("L") = some 92 ∧
    cfgInk.distance_at_closest -
      (max (cfgInk.rsb ("R")) 0 + max (cfgInk.lsb ("L")) 0) = 100 ∧
    ¬ (92 : Int) = 100 ∧
    inkVal cfgInk ((25 : Rat) / 2) ("R") ("L") = 4 := by
  refine ⟨by with_unfolding_all rfl, by with_unfolding_all rfl, by decide,
    by with_unfolding_all rfl⟩

/-- Witness for C6 (amended) at the concrete bearing configuration. -/
theorem ink_to_ink_value_spec_witness :
    assocGet st0.ink_to_ink_routines 0 = none ∧
    ("R" : String) ∈ cfgInk.isols_finas ∧
    ("L" : String) ∈ cfgInk.inits ++ cfgInk.isols ∧
    findPos (ink_to_ink_at cfgInk st0 0).1.rules ("R") ("L") =
      (if inkVal cfgInk (ink_r_distance cfgInk 0) ("R") ("L") = 0 then none
       else some (inkVal cfgInk (ink_r_distance cfgInk 0) ("R") ("L"))) := by
  refine ⟨rfl, by decide, by decide, ?_⟩
  exact (ink_to_ink_value_spec cfgInk st0 0 ("R") ("L") rfl (by decide)
    (by decide)).1

/-- Shape extractor for chaining rules: target groups and the names of
the referenced lookup routines (`none` for positioning rules). -/
def chainInfo : Rule → Option (List (List String) × List (List String))
  | Rule.chaining t _ lks => some (t, lks.map fun l => l.map RoutRef.name)
  | _ => none

theorem tableToRules_no_chaining (tbl : List (String × List (String × Int))) :
    ∀ ru ∈ tableToRules tbl, chainInfo ru = none := by
  intro ru hru
  simp only [tableToRules, List.mem_flatMap, List.mem_map] at hru
  obtain ⟨p, _, q, _, hq⟩ := hru
  rw [← hq]
  rfl

/-- C2 (amended): for a rise not yet memoized (and with no memoized ink
routine for its band), `generate_kern_table_for_rise` quantizes FIRST
and compares the quantized rise with 400: at a quantized rise of at
least 400 (which includes the raw argument 399) it returns the kern
positioning routine directly; below 400 it returns the dispatcher whose
first branch matches {isols_finas, space, left candidates} and applies
the ink-to-ink routine, registered before the second branch
{isols_finas, left candidates} applying the computed kern table. -/
theorem generate_kern_table_threshold_quantized (cfg : Config)
    (st : KernState) (r0 : Int) (rt : Routine) (st1 : KernState)
    (hmemo : assocGet st.kern_at_rise r0 = none)
    (hink : assocGet st.ink_to_ink_routines
      (quantize ((r0 : Int) : Rat) rise_quantization) = none)
    (h : generate_kern_table_for_rise cfg st r0 = .ok (rt, st1)) :
    (400 ≤ quantize ((r0 : Int) : Rat) rise_quantization →
      rt.name = "kern_at_" ++ intStr (quantize ((r0 : Int) : Rat)
        rise_quantization) ∧
      (∀ ru ∈ rt.rules, chainInfo ru = none)) ∧
    (quantize ((r0 : Int) : Rat) rise_quantization < 400 →
      rt.name = "dispatch_" ++ intStr (quantize ((r0 : Int) : Rat)
        rise_quantization) ∧
      rt.rules.map chainInfo =
        [some ([cfg.isols_finas, ["space.urdu"],
            if 0 < quantize ((r0 : Int) : Rat) rise_quantization then
              cfg.inits
            else cfg.inits ++ cfg.isols],
          [["ink_to_ink_" ++ intStr (quantize ((r0 : Int) : Rat)
            rise_quantization)], [], []]),
         some ([cfg.isols_finas,
            if 0 < quantize ((r0 : Int) : Rat) rise_quantization then
              cfg.inits
            else cfg.inits ++ cfg.isols],
          [["kern_at_" ++ intStr (quantize ((r0 : Int) : Rat)
            rise_quantization)], [], []])]) := by
  simp only [generate_kern_table_for_rise, hmemo] at h
  split at h
  · exact absurd h (by simp)
  · next ktbl sh1 calls heq =>
    split at h
    · next hq =>
      obtain ⟨hrt, hst⟩ :
          ({ rid := st.nextId
             name := "kern_at_" ++ intStr (quantize ((r0 : Int) : Rat)
               rise_quantization)
             flags := 12
             markFilteringSet := some cfg.all_above_marks
             rules := tableToRules ktbl
             table := ktbl } : Routine) = rt ∧ _ = st1 := by
        simpa using h
      constructor
      · intro _
        refine ⟨by rw [← hrt], ?_⟩
        rw [← hrt]
        exact tableToRules_no_chaining ktbl
      · intro hlt
        omega
    · next hq =>
      have hlt : quantize ((r0 : Int) : Rat) rise_quantization < 400 := by
        omega
      constructor
      · intro hge
        omega
      · intro _
        obtain ⟨hrt, hst⟩ :
            ({ rid := (ink_to_ink_at cfg
                 { st with
                     shelve := sh1
                     solverCalls := st.solverCalls + calls
                     nextId := st.nextId + 1 }
                 (quantize ((r0 : Int) : Rat) rise_quantization)).2.nextId
               name := "dispatch_" ++ intStr (quantize ((r0 : Int) : Rat)
                 rise_quantization)
               flags := 8
               markFilteringSet := none
               rules :=
                 [Rule.chaining [cfg.isols_finas, ["space.urdu"],
                     if 0 < quantize ((r0 : Int) : Rat) rise_quantization then
                       cfg.inits
                     else cfg.inits ++ cfg.isols] []
                     [[routineRef (ink_to_ink_at cfg
                       { st with
                           shelve := sh1
                           solverCalls := st.solverCalls + calls
                           nextId := st.nextId + 1 }
                       (quantize ((r0 : Int) : Rat) rise_quantization)).1],
                      [], []],
                  Rule.chaining [cfg.isols_finas,
                     if 0 < quantize ((r0 : Int) : Rat) rise_quantization then
                       cfg.inits
                     else cfg.inits ++ cfg.isols] []
                     [[routineRef
                        { rid := st.nextId
                          name := "kern_at_" ++ intStr
                            (quantize ((r0 : Int) : Rat) rise_quantization)
                          flags := 12
                          markFilteringSet := some cfg.all_above_marks
                          rules := tableToRules ktbl
                          table := ktbl }],
                      [], []]]
               table := [] } : Routine) = rt ∧ _ = st1 := by
          simpa using h
        have hinkname : (ink_to_ink_at cfg
            { st with
                shelve := sh1
                solverCalls := st.solverCalls + calls
                nextId := st.nextId + 1 }
            (quantize ((r0 : Int) : Rat) rise_quantization)).1.name =
            "ink_to_ink_" ++ intStr (quantize ((r0 : Int) : Rat)
              rise_quantization) := by
          simp [ink_to_ink_at, hink]
        refine ⟨by rw [← hrt], ?_⟩
        rw [← hrt]
        simp [chainInfo, routineRef, hinkname]

/-- Counterexample for C2 as stated: the raw rise 399 is below 400, so
the claim requires a two-branch dispatcher; the builder quantizes 399 to
400 first and returns the kern positioning routine `kern_at_400`
directly (no chaining branch at all). -/
theorem generate_kern_table_399_direct :
    (399 : Int) < 400 ∧
    (generate_kern_table_for_rise cfgTriv st0 399).toOption.map
        (fun p => (p.1.name, p.1.rules.length)) =
      some ("kern_at_400", 0) := by
  exact ⟨by decide, by with_unfolding_all rfl⟩

def gen0 : Except String (Routine × KernState) :=
  generate_kern_table_for_rise cfgTriv st0 0

def rt0w : Routine :=
  match gen0 with
  | .ok (rt, _) => rt
  | .error _ => ⟨0, "", 0, none, [], []⟩

def st0w : KernState :=
  match gen0 with
  | .ok (_, s) => s
  | .error _ => st0

/-- Witness for C2 (amended): at rise 0 the dispatcher is produced, with
the space/ink-to-ink branch first and the kern-table branch second. -/
theorem generate_kern_table_threshold_quantized_witness :
    quantize ((0 : Int) : Rat) rise_quantization < 400 ∧
    rt0w.name = "dispatch_0" ∧
    rt0w.rules.map chainInfo =
      [some ([[], ["space.urdu"], []], [["ink_to_ink_0"], [], []]),
       some ([[], []], [["kern_at_0"], [], []])] := by
  have hq : quantize ((0 : Int) : Rat) rise_quantization = 0 := by
    with_unfolding_all rfl
  have hgen : generate_kern_table_for_rise cfgTriv st0 0 =
      .ok (rt0w, st0w) := by with_unfolding_all rfl
  have happ := (generate_kern_table_threshold_quantized cfgTriv st0 0 rt0w
    st0w rfl (by rw [hq]; rfl) hgen).2 (by omega)
  refine ⟨by omega, ?_, ?_⟩
  · exact happ.1.trans (by rw [hq]; with_unfolding_all rfl)
  · exact happ.2.trans (by rw [hq]; with_unfolding_all rfl)

theorem quantize_fix_of_dvd {r : Int} (h : (100 : Int) ∣ r) :
    quantize ((r : Int) : Rat) rise_quantization = r := by
  obtain ⟨k, rfl⟩ := h
  simpa [rise_quantization] using quantize_hundred_mul k

/-- C5 (amended): for a rise argument that is already a multiple of the
quantization step — as every rise passed by the enumeration is — a
repeated call with the same argument returns the identical memoized
routine reference and leaves the state unchanged. -/
theorem generate_kern_table_memo_idempotent (cfg : Config) (st : KernState)
    (r : Int) (rt : Routine) (st1 : KernState) (h100 : (100 : Int) ∣ r)
    (h : generate_kern_table_for_rise cfg st r = .ok (rt, st1)) :
    generate_kern_table_for_rise cfg st1 r = .ok (rt, st1) := by
  have hqr : quantize ((r : Int) : Rat) rise_quantization = r :=
    quantize_fix_of_dvd h100
  have hget : assocGet st1.kern_at_rise r = some rt := by
    cases hm : assocGet st.kern_at_rise r with
    | some rt0 =>
      simp only [generate_kern_table_for_rise, hm] at h
      obtain ⟨hrt, hst⟩ : rt0 = rt ∧ st = st1 := by simpa using h
      rw [← hst, hm, hrt]
    | none =>
      simp only [generate_kern_table_for_rise, hm] at h
      rw [hqr] at h
      split at h
      · exact absurd h (by simp)
      · next ktbl sh1 calls heq =>
        split at h
        · next hq =>
          obtain ⟨hrt, hst⟩ : _ = rt ∧ _ = st1 := by simpa using h
          rw [← hst]
          simp only []
          rw [← hrt]
          exact assocGet_set_self ..
        · next hq =>
          obtain ⟨hrt, hst⟩ : _ = rt ∧ _ = st1 := by simpa using h
          rw [← hst]
          simp only []
          rw [← hrt]
          exact assocGet_set_self ..
  simp only [generate_kern_table_for_rise, hget]

/-- Counterexample for C5 as stated: two calls with the same raw rise
350 (trivially equal after quantization) rebuild the table twice — the
memo is consulted with the unquantized 350 but filled under the
quantized 400 — so the two returned references are distinct (fresh
identities 0 and 1). -/
theorem generate_kern_table_rebuild_unquantized :
    (generate_kern_table_for_rise cfgTriv st0 350).toOption.map
        (fun p => p.1.rid) = some 0 ∧
    ((generate_kern_table_for_rise cfgTriv st0 350).toOption.bind
        fun p => (generate_kern_table_for_rise cfgTriv p.2 350).toOption.map
          fun q => q.1.rid) = some 1 ∧
    ¬ (0 : Nat) = 1 := by
  refine ⟨by with_unfolding_all rfl, by with_unfolding_all rfl, by decide⟩

/-- Witness for C5 (amended): at the quantized rise 400, a second call
returns the very result of the first. -/
theorem generate_kern_table_memo_idempotent_witness :
    (100 : Int) ∣ 400 ∧
    ((generate_kern_table_for_rise cfgTriv st0 400).bind
        fun p => generate_kern_table_for_rise cfgTriv p.2 400) =
      generate_kern_table_for_rise cfgTriv st0 400 := by
  refine ⟨by decide, ?_⟩
  cases hgen : generate_kern_table_for_rise cfgTriv st0 400 with
  | error e => rfl
  | ok p =>
    obtain ⟨rt, st1⟩ := p
    have hsecond := generate_kern_table_memo_idempotent cfgTriv st0 400 rt
      st1 (by decide) hgen
    show generate_kern_table_for_rise cfgTriv st1 400 = Except.ok (rt, st1)
    exact hsecond

theorem actionFinish_closed_iff (cfg : Config)
    (res : Except String (List Rule × KernState)) :
    (actionFinish cfg res).2 = ((actionFinish cfg res).1).isOk := by
  cases res with
  | error e => rfl
  | ok p =>
    obtain ⟨rules, st1⟩ := p
    simp only [actionFinish]
    rcases generate_kern_table_for_rise cfg st1 0 with e | q
    · rfl
    · obtain ⟨rt0, stx⟩ := q
      rfl

/-- C9 (amended): the shelve is closed exactly on the successful exit
path of the run; there is no scoped acquisition, so when rule generation
fails partway the close is never reached. -/
theorem action_closes_iff_ok (cfg : Config) :
    (NastaliqKerningAction cfg).2 = ((NastaliqKerningAction cfg).1).isOk :=
  actionFinish_closed_iff cfg _

/-- A configuration whose solver always raises. -/
def cfgBoom : Config :=
  { distance_at_closest := 1
    maxtuck := 0
    solver := fun _ _ _ _ _ => .error "boom"
    inits := ["I"]
    isols := []
    isols_finas := ["F"]
    binned_medis := []
    binned_finas := [(["F"], 0)]
    rsb := fun _ => 0
    lsb := fun _ => 0
    all_above_marks := []
    initialShelve := [] }

/-- Counterexample for C9 as stated: a solver failure during rule
generation aborts the run with the error and the shelve is NOT closed
on that exit path. -/
theorem action_error_leaves_shelve_open :
    (NastaliqKerningAction cfgBoom).1 = .error "boom" ∧
    (NastaliqKerningAction cfgBoom).2 = false := by
  refine ⟨by with_unfolding_all rfl, by with_unfolding_all rfl⟩
